import Mathlib

/-!
Shallow embedding of the fixed-size-binary parquet page decoder
(`crates/polars-parquet/src/arrow/read/deserialize/fixed_size_binary.rs`).

Byte buffers are `List Nat`, machine indices are `Nat` (all counts in the
decoder are small and no wrapping arithmetic occurs on the modelled paths).
Rust mutation is explicit state passing; Rust `Result` becomes `PRes`/`DOut`,
with a dedicated `panic` outcome for Rust panics (slice-bounds violations,
division by zero).  The helpers that live in `utils.rs` / `hybrid_rle`
(`extend_from_decoder`, `GatheredHybridRle`, the index stream) are not part
of the sources and are modelled from the spec; each such definition says so
in its doc comment.
-/

abbrev Byte := Nat

/-- Error type as used by the source file (`ParquetError::oos`, `not_implemented`). -/
inductive ParquetError where
  | oos (msg : String)
  | notImplemented (msg : String)
deriving DecidableEq

/-- Result of a fallible, possibly panicking computation that owns no buffers. -/
inductive PRes (α : Type) where
  | ok (a : α)
  | err (e : ParquetError)
  | panic
deriving DecidableEq

/-- Result of a fallible, possibly panicking stateful computation; `err` carries the
state of the mutated buffers at the moment of failure (Rust leaves them in place). -/
inductive DOut (σ : Type) where
  | ok (s : σ)
  | err (e : ParquetError) (s : σ)
  | panic
deriving DecidableEq

/-- Rust slice `&s[a..b]`; `none` models the slice-bounds panic. -/
def sliceRange (s : List Byte) (a b : Nat) : Option (List Byte) :=
  if a ≤ b ∧ b ≤ s.length then some ((s.drop a).take (b - a)) else none

/-- Page encodings relevant to `StateTranslation::new`; `deltaLengthByteArray`
stands in for any encoding outside the match's supported arms. -/
inductive Encoding where
  | plain
  | plainDictionary
  | rleDictionary
  | deltaLengthByteArray
deriving DecidableEq

/-- Modelled from the spec: a data page carries its declared encoding, its raw
value bytes (the `split_buffer(page)?.values` slice) and, for dictionary-encoded
pages, the hybrid-RLE index stream it decodes to (`dict_indices_decoder`), taken
here as the logical sequence of `u32` indices (hybrid_rle is not in the sources). -/
structure DataPage where
  encoding : Encoding
  values : List Byte
  indices : List Nat
deriving DecidableEq

/-- Translation of the source's `StateTranslation` enum: a Plain byte cursor with
the element size, or a dictionary index cursor plus the dictionary buffer. -/
inductive StateTranslation where
  | plain (values : List Byte) (size : Nat)
  | dictionary (values : List Nat) (dict : List Byte)
deriving DecidableEq

/-- Translation of the source's `FixedSizeBinary` accumulator. -/
structure FixedSizeBinary where
  values : List Byte
  size : Nat
deriving DecidableEq

/-- `Decoder::DecodedState = (FixedSizeBinary, MutableBitmap)`. -/
abbrev DecodedState := FixedSizeBinary × List Bool

/-- The `ParquetError::oos(format!("Fixed size binary data length {} is not
divisible by size {}", ..))` value built in `StateTranslation::new`. -/
def fsbNotDivisibleError (len size : Nat) : ParquetError :=
  .oos ("Fixed size binary data length " ++ toString len ++
        " is not divisible by size " ++ toString size)

/-- The error built in `FixedSizeBinaryGatherer::hybridrle_to_target`. -/
def fsbIndexOutOfRangeError : ParquetError :=
  .oos "Fixed size binary dictionary index out-of-range"

/-- The `not_implemented(page)` error of the catch-all arm of `StateTranslation::new`. -/
def notImplementedError : ParquetError :=
  .notImplemented "decoding this encoding is not implemented"

/-- Modelled from the spec: the error used when the hybrid-RLE index stream ends
before the requested number of values has been gathered. -/
def rleExhaustedError : ParquetError :=
  .oos "the hybrid-rle index stream ended before the requested number of values"

/-- Translation of `StateTranslation::new`.  The Plain arm validates
`values.len() % size == 0`; a zero `size` makes the Rust `%` panic. -/
def StateTranslation.new (decoderSize : Nat) (page : DataPage)
    (dict : Option (List Byte)) : PRes StateTranslation :=
  match page.encoding, dict with
  | .plain, _ =>
    if decoderSize = 0 then .panic
    else if page.values.length % decoderSize ≠ 0 then
      .err (fsbNotDivisibleError page.values.length decoderSize)
    else .ok (.plain page.values decoderSize)
  | .plainDictionary, some d => .ok (.dictionary page.indices d)
  | .rleDictionary, some d => .ok (.dictionary page.indices d)
  | _, _ => .err notImplementedError

/-- Translation of `StateTranslation::len_when_not_nullable`. -/
def StateTranslation.len_when_not_nullable : StateTranslation → Nat
  | .plain v size => v.length / size
  | .dictionary v _ => v.length

/-- Translation of `StateTranslation::skip_in_place`; the dictionary cursor's
skip is modelled on the index sequence (always succeeding on the model). -/
def StateTranslation.skip_in_place : StateTranslation → Nat → StateTranslation
  | st, 0 => st
  | .plain v size, n => .plain (v.drop (Nat.min v.length (n * size))) size
  | .dictionary v d, n => .dictionary (v.drop n) d

/-- Translation of `FixedSizeBinaryCollector::push_n`: the element count is
clamped to the whole elements available, `n * size` bytes are copied verbatim
and the cursor advances.  Returns (new slice, new target). -/
def FixedSizeBinaryCollector.push_n (size : Nat) (slice target : List Byte)
    (n : Nat) : List Byte × List Byte :=
  let n := Nat.min n (slice.length / size)
  (slice.drop (n * size), target ++ slice.take (n * size))

/-- Translation of `FixedSizeBinaryCollector::push_n_nulls`: appends `n * size`
zero bytes (`target.resize(target.len() + n * size, 0)`). -/
def FixedSizeBinaryCollector.push_n_nulls (size : Nat) (slice target : List Byte)
    (n : Nat) : List Byte × List Byte :=
  (slice, target ++ List.replicate (n * size) 0)

/-- Translation of `FixedSizeBinaryGatherer::hybridrle_to_target`: bounds-check
`value * size < dict.len()`, then slice `dict[value*size..(value+1)*size]`
(the slice panics when its upper end exceeds the buffer). -/
def FixedSizeBinaryGatherer.hybridrle_to_target (dict : List Byte) (size : Nat)
    (value : Nat) : PRes (List Byte) :=
  if value * size ≥ dict.length then .err fsbIndexOutOfRangeError
  else
    match sliceRange dict (value * size) ((value + 1) * size) with
    | some s => .ok s
    | none => .panic

/-- Translation of `FixedSizeBinaryGatherer::gather_one` (always `Ok` in the
source; modelled as the pure append). -/
def FixedSizeBinaryGatherer.gather_one (target value : List Byte) : List Byte :=
  target ++ value

/-- Translation of `FixedSizeBinaryGatherer::gather_repeated`
(`for _ in 0..n { target.extend(value) }`; always `Ok`). -/
def FixedSizeBinaryGatherer.gather_repeated (target value : List Byte) : Nat → List Byte
  | 0 => target
  | n + 1 => FixedSizeBinaryGatherer.gather_repeated (target ++ value) value n

/-- Modelled from the spec (§4.2/§4.4; `GatheredHybridRle` lives in utils.rs
which is not in the sources): `push_n` draws the next `n` indices from the
hybrid-RLE stream, resolves each through the gatherer and appends the resolved
value; an index failing to resolve propagates the error with the buffers as
they stand. -/
def GatheredHybridRle.push_n (dict : List Byte) (size : Nat) :
    List Nat → List Byte → Nat → DOut (List Nat × List Byte)
  | idxs, target, 0 => .ok (idxs, target)
  | [], target, _ + 1 => .err rleExhaustedError ([], target)
  | i :: idxs, target, n + 1 =>
    match FixedSizeBinaryGatherer.hybridrle_to_target dict size i with
    | .ok v =>
      GatheredHybridRle.push_n dict size idxs
        (FixedSizeBinaryGatherer.gather_one target v) n
    | .err e => .err e (i :: idxs, target)
    | .panic => .panic

/-- Modelled from the spec (§4.2 dictionary path, §9): `push_n_nulls` appends
the designated null value `n` times through the gatherer's repeated gather. -/
def GatheredHybridRle.push_n_nulls (nullValue : List Byte) (idxs : List Nat)
    (target : List Byte) (n : Nat) : DOut (List Nat × List Byte) :=
  .ok (idxs, FixedSizeBinaryGatherer.gather_repeated target nullValue n)

/-- The `BatchableCollector` strategy interface of utils.rs, as the two
operations the Null-Merge Engine drives. -/
structure BatchableCollector (σ : Type) where
  pushN : σ → List Byte → Nat → DOut (σ × List Byte)
  pushNNulls : σ → List Byte → Nat → DOut (σ × List Byte)

/-- The Plain-path collector (`FixedSizeBinaryCollector`) as a strategy over
its slice cursor. -/
def plainCollector (size : Nat) : BatchableCollector (List Byte) where
  pushN slice target n := .ok (FixedSizeBinaryCollector.push_n size slice target n)
  pushNNulls slice target n := .ok (FixedSizeBinaryCollector.push_n_nulls size slice target n)

/-- The Dictionary-path collector (`GatheredHybridRle`) as a strategy over the
index stream. -/
def gatheredCollector (dict : List Byte) (size : Nat) (nullValue : List Byte) :
    BatchableCollector (List Nat) where
  pushN := GatheredHybridRle.push_n dict size
  pushNNulls := GatheredHybridRle.push_n_nulls nullValue

/-- Modelled from the spec (§4.3 Null-Merge Engine; utils.rs is not in the
sources): consume `limit` booleans from the page-validity stream, batching each
maximal run of equal bits into a single `push_n` / `push_n_nulls` call and
extending the bitmap with the run's bits; exhausting the stream before `limit`
is a panic-class internal-contract violation (§7).  `fuel` only bounds the
structural recursion: every step consumes at least one element of the stream,
so `fuel = limit` always suffices (see `extend_from_decoder`). -/
def extendFromDecoderFuel {σ : Type} (c : BatchableCollector σ) :
    Nat → List Bool → Nat → σ → List Byte → List Bool → DOut (σ × List Byte × List Bool)
  | _, _, 0, s, target, bitmap => .ok (s, target, bitmap)
  | _, [], _ + 1, _, _, _ => .panic
  | 0, _ :: _, _ + 1, _, _, _ => .panic
  | fuel + 1, bb :: rest, l + 1, s, target, bitmap =>
    let run := Nat.min (l + 1) (((bb :: rest).takeWhile (fun x => x == bb)).length)
    match (if bb then c.pushN s target run else c.pushNNulls s target run) with
    | .ok (s', t') =>
      extendFromDecoderFuel c fuel ((bb :: rest).drop run) (l + 1 - run) s' t'
        (bitmap ++ List.replicate run bb)
    | .err e (s', t') => .err e (s', t', bitmap)
    | .panic => .panic

/-- Modelled from the spec: `utils::extend_from_decoder` with `limit = Some limit`. -/
def extend_from_decoder {σ : Type} (c : BatchableCollector σ) (pageValidity : List Bool)
    (limit : Nat) (s : σ) (target : List Byte) (bitmap : List Bool) :
    DOut (σ × List Byte × List Bool) :=
  extendFromDecoderFuel c limit pageValidity limit s target bitmap

/-- Translation of `BinaryDecoder::decode_plain_encoded`.  The no-validity arm
passes `self.size` as the element count — exactly as the source's
`collector.push_n(&mut values.values, self.size)` does — and never touches the
bitmap; the validity arm delegates to the Null-Merge Engine with `limit`.
Returns the new decoded state and the advanced page slice. -/
def BinaryDecoder.decode_plain_encoded (size : Nat) (st : DecodedState)
    (pageValues : List Byte) (pageValidity : Option (List Bool)) (limit : Nat) :
    DOut (DecodedState × List Byte) :=
  match pageValidity with
  | none =>
    let r := FixedSizeBinaryCollector.push_n size pageValues st.1.values size
    .ok ((⟨r.2, st.1.size⟩, st.2), r.1)
  | some pv =>
    match extend_from_decoder (plainCollector size) pv limit pageValues st.1.values st.2 with
    | .ok (slice, target, bitmap) => .ok ((⟨target, st.1.size⟩, bitmap), slice)
    | .err e (slice, target, bitmap) => .err e ((⟨target, st.1.size⟩, bitmap), slice)
    | .panic => .panic

/-- Translation of `BinaryDecoder::decode_dictionary_encoded`.  The null
placeholder `&dict[..self.size]` is sliced before either branch runs, so a
dictionary shorter than `size` bytes panics unconditionally.  The no-validity
arm is `page_values.gather_n_into(&mut values.values, limit, &gatherer)`
(hybrid_rle not in the sources, modelled as gathering `limit` indices); the
validity arm drives the `GatheredHybridRle` collector through the Null-Merge
Engine.  Returns the new decoded state and the remaining index stream. -/
def BinaryDecoder.decode_dictionary_encoded (size : Nat) (st : DecodedState)
    (pageValues : List Nat) (pageValidity : Option (List Bool)) (dict : List Byte)
    (limit : Nat) : DOut (DecodedState × List Nat) :=
  match sliceRange dict 0 size with
  | none => .panic
  | some nullValue =>
    match pageValidity with
    | none =>
      match GatheredHybridRle.push_n dict size pageValues st.1.values limit with
      | .ok (idxs, target) => .ok ((⟨target, st.1.size⟩, st.2), idxs)
      | .err e (idxs, target) => .err e ((⟨target, st.1.size⟩, st.2), idxs)
      | .panic => .panic
    | some pv =>
      match extend_from_decoder (gatheredCollector dict size nullValue) pv limit
          pageValues st.1.values st.2 with
      | .ok (idxs, target, bitmap) => .ok ((⟨target, st.1.size⟩, bitmap), idxs)
      | .err e (idxs, target, bitmap) => .err e ((⟨target, st.1.size⟩, bitmap), idxs)
      | .panic => .panic

/-- Translation of `StateTranslation::extend_from_state`: dispatch on the
variant, threading the page cursor through the decode call. -/
def StateTranslation.extend_from_state (size : Nat) (st : StateTranslation)
    (decoded : DecodedState) (pageValidity : Option (List Bool)) (additional : Nat) :
    DOut (StateTranslation × DecodedState) :=
  match st with
  | .plain pageValues sz =>
    match BinaryDecoder.decode_plain_encoded size decoded pageValues pageValidity additional with
    | .ok (d, slice) => .ok (.plain slice sz, d)
    | .err e (d, slice) => .err e (.plain slice sz, d)
    | .panic => .panic
  | .dictionary idxs dict =>
    match BinaryDecoder.decode_dictionary_encoded size decoded idxs pageValidity dict additional with
    | .ok (d, idxs') => .ok (.dictionary idxs' dict, d)
    | .err e (d, idxs') => .err e (.dictionary idxs' dict, d)
    | .panic => .panic

/-- Translation of `BinaryDecoder::with_capacity` (capacity only preallocates;
the logical state starts empty). -/
def BinaryDecoder.with_capacity (size : Nat) : DecodedState :=
  (⟨[], size⟩, [])

/-- Translation of `NestedDecoder::validity_extend`
(`validity.extend_constant(n, value)`). -/
def NestedDecoder.validity_extend (st : DecodedState) (value : Bool) (n : Nat) :
    DecodedState :=
  (st.1, st.2 ++ List.replicate n value)

/-- Translation of `NestedDecoder::values_extend_nulls`
(`values.values.resize(values.values.len() + n * values.size, 0)`). -/
def NestedDecoder.values_extend_nulls (st : DecodedState) (n : Nat) : DecodedState :=
  (⟨st.1.values ++ List.replicate (n * st.1.size) 0, st.1.size⟩, st.2)

/-- The spec's length invariant: `value buffer length == size * bitmap length`. -/
def lengthInvariant (st : DecodedState) : Prop :=
  st.1.values.length = st.1.size * st.2.length

/-- Number of `true` bits in a validity pattern. -/
def trueCount : List Bool → Nat
  | [] => 0
  | true :: l => trueCount l + 1
  | false :: l => trueCount l

/-- Specification of the null-interleaving law for a Plain byte source: valid
positions take the next `size`-byte chunk of the source, null positions take
`size` zero bytes. -/
def interleaveSpec (size : Nat) : List Bool → List Byte → List Byte
  | [], _ => []
  | true :: pv, src => src.take size ++ interleaveSpec size pv (src.drop size)
  | false :: pv, src => List.replicate size 0 ++ interleaveSpec size pv src

/-- Resolvability of a dictionary index: the bounds check passes and the
`size`-byte slice starting at `i * size` lies inside the dictionary. -/
def inRange (dict : List Byte) (size : Nat) (i : Nat) : Prop :=
  i * size < dict.length ∧ (i + 1) * size ≤ dict.length

/-- Concatenation of the dictionary chunks a list of indices resolves to. -/
def resolveConcat (dict : List Byte) (size : Nat) (idxs : List Nat) : List Byte :=
  (idxs.map (fun i => (dict.drop (i * size)).take size)).flatten

/-- Specification of the interleaving produced by the Dictionary path: valid
positions resolve the next index to its dictionary chunk, null positions take
the designated null value. -/
def gatherInterleaveSpec (dict : List Byte) (size : Nat) (nullValue : List Byte) :
    List Bool → List Nat → List Byte
  | [], _ => []
  | false :: pv, idxs => nullValue ++ gatherInterleaveSpec dict size nullValue pv idxs
  | true :: _, [] => []
  | true :: pv, i :: idxs =>
    (dict.drop (i * size)).take size ++ gatherInterleaveSpec dict size nullValue pv idxs

/-- Sequential n-fold application of `gather_one`, as the spec's
"invoking gather one n times" side of the equivalence law. -/
def gatherOneNTimes (target value : List Byte) : Nat → List Byte
  | 0 => target
  | n + 1 => gatherOneNTimes (FixedSizeBinaryGatherer.gather_one target value) value n

/-- Claim C1: the claim says `decode_plain_encoded` with no page-validity and
`limit = k` appends all `k` packed elements.  The source instead passes
`self.size` as the element count (`collector.push_n(&mut values.values,
self.size)`), so with `size = 2` and `k = 3` elements `[1,2,3,4,5,6]` only
`min(size, k) = 2` elements (4 bytes) are appended and `[5,6]` stays behind. -/
theorem decode_plain_no_validity_ignores_limit :
    BinaryDecoder.decode_plain_encoded 2 (BinaryDecoder.with_capacity 2)
      [1, 2, 3, 4, 5, 6] none 3 =
      .ok (((⟨[1, 2, 3, 4], 2⟩ : FixedSizeBinary), []), [5, 6]) ∧
    ([1, 2, 3, 4] : List Byte) ≠ [1, 2, 3, 4, 5, 6] := by decide

/-- Claim C2: for a dictionary of `m` elements of width `size`, resolving any
index `≥ m` fails with the out-of-range `OutOfSpec` error, and the failing
gather call leaves the target buffer exactly as it was. -/
theorem gatherer_out_of_range_rejection (m size idx : Nat) (dict : List Byte)
    (target : List Byte) (rest : List Nat) (n : Nat)
    (_hs : 0 < size) (hd : dict.length = m * size) (hi : m ≤ idx) :
    FixedSizeBinaryGatherer.hybridrle_to_target dict size idx =
      .err fsbIndexOutOfRangeError ∧
    GatheredHybridRle.push_n dict size (idx :: rest) target (n + 1) =
      .err fsbIndexOutOfRangeError (idx :: rest, target) := by
  have hge : idx * size ≥ dict.length := by
    rw [hd]
    exact Nat.mul_le_mul_right size hi
  have h1 : FixedSizeBinaryGatherer.hybridrle_to_target dict size idx =
      .err fsbIndexOutOfRangeError := by
    unfold FixedSizeBinaryGatherer.hybridrle_to_target
    rw [if_pos hge]
  refine ⟨h1, ?_⟩
  unfold GatheredHybridRle.push_n
  rw [h1]

/-- Witness for C2 at `m = 2`, `size = 2`, `dict = [1,2,3,4]`, index `2`. -/
theorem gatherer_out_of_range_rejection_witness :
    FixedSizeBinaryGatherer.hybridrle_to_target [1, 2, 3, 4] 2 2 =
      .err fsbIndexOutOfRangeError ∧
    GatheredHybridRle.push_n [1, 2, 3, 4] 2 [2] [9] 1 =
      .err fsbIndexOutOfRangeError ([2], [9]) :=
  gatherer_out_of_range_rejection 2 2 2 [1, 2, 3, 4] [9] [] 0
    (by decide) (by decide) (by decide)

/-- Counterexample to claim C3: on a dictionary of 6 bytes with `size = 4`
(a length that is not a multiple of the element width), index 1 passes the
bounds check (`1 * 4 < 6`) but the slice `dict[4..8]` is out of range, so the
call panics instead of returning a `size`-byte slice or an `OutOfSpec` error. -/
theorem hybridrle_to_target_ragged_dict_panics :
    FixedSizeBinaryGatherer.hybridrle_to_target [0, 0, 0, 0, 0, 0] 4 1 = .panic := by
  decide

/-- Claim C3 (amended): for every dictionary buffer whose byte length is a whole
multiple of `size` and every index, resolving either returns the in-range
`size`-byte slice `dict[i*size..(i+1)*size]` or fails with the out-of-range
`OutOfSpec` error; the slice taken after the bounds check is always in range. -/
theorem hybridrle_to_target_total_of_dvd (dict : List Byte) (size idx : Nat)
    (h : size ∣ dict.length) :
    (FixedSizeBinaryGatherer.hybridrle_to_target dict size idx =
        .ok ((dict.drop (idx * size)).take size) ∧
      ((dict.drop (idx * size)).take size).length = size ∧
      idx * size < dict.length) ∨
    FixedSizeBinaryGatherer.hybridrle_to_target dict size idx =
      .err fsbIndexOutOfRangeError := by
  by_cases hge : idx * size ≥ dict.length
  · right
    unfold FixedSizeBinaryGatherer.hybridrle_to_target
    rw [if_pos hge]
  · left
    have hlt : idx * size < dict.length := Nat.not_le.mp hge
    obtain ⟨k, hk⟩ := h
    have hik : idx < k := by
      have := hk ▸ hlt
      have h2 : size * idx < size * k := by
        calc size * idx = idx * size := Nat.mul_comm _ _
        _ < size * k := this
      exact Nat.lt_of_mul_lt_mul_left h2
    have hub : (idx + 1) * size ≤ dict.length := by
      rw [hk]
      calc (idx + 1) * size ≤ k * size := Nat.mul_le_mul_right size hik
      _ = size * k := Nat.mul_comm _ _
    have hsub : (idx + 1) * size - idx * size = size := by
      rw [Nat.succ_mul]
      omega
    have hslice : sliceRange dict (idx * size) ((idx + 1) * size) =
        some ((dict.drop (idx * size)).take size) := by
      unfold sliceRange
      rw [if_pos ⟨by rw [Nat.succ_mul]; omega, hub⟩, hsub]
    refine ⟨?_, ?_, hlt⟩
    · unfold FixedSizeBinaryGatherer.hybridrle_to_target
      rw [if_neg hge, hslice]
    · rw [List.length_take, List.length_drop]
      omega

/-- Witness for C3 (amended) at `dict = [1,2,3,4]`, `size = 2`, index 1. -/
theorem hybridrle_to_target_total_of_dvd_witness :
    (FixedSizeBinaryGatherer.hybridrle_to_target [1, 2, 3, 4] 2 1 =
        .ok (([1, 2, 3, 4].drop (1 * 2)).take 2) ∧
      (([1, 2, 3, 4].drop (1 * 2)).take 2).length = 2 ∧
      1 * 2 < [1, 2, 3, 4].length) ∨
    FixedSizeBinaryGatherer.hybridrle_to_target [1, 2, 3, 4] 2 1 =
      .err fsbIndexOutOfRangeError :=
  hybridrle_to_target_total_of_dvd [1, 2, 3, 4] 2 1 (by decide)

/-- Claim C6: constructing a Plain `StateTranslation` fails with the spec's
"malformed page" error (the source's `ParquetError::oos("... not divisible
...")`) exactly when the value-byte length is not a whole multiple of the
fixed element size, and succeeds when it is divisible. -/
theorem stateTranslation_new_plain_divisibility (size : Nat) (page : DataPage)
    (dict : Option (List Byte)) (hs : 0 < size) (he : page.encoding = .plain) :
    (page.values.length % size ≠ 0 →
      StateTranslation.new size page dict =
        .err (fsbNotDivisibleError page.values.length size)) ∧
    (page.values.length % size = 0 →
      StateTranslation.new size page dict = .ok (.plain page.values size)) := by
  obtain ⟨e, v, idx⟩ := page
  simp only [DataPage.encoding] at he
  subst he
  constructor <;> intro h <;>
    simp [StateTranslation.new, Nat.pos_iff_ne_zero.mp hs, h]

/-- Witness for C6: byte length 7 with `size = 4` fails, byte length 8 succeeds. -/
theorem stateTranslation_new_plain_divisibility_witness :
    StateTranslation.new 4 ⟨.plain, [0, 0, 0, 0, 0, 0, 0], []⟩ none =
      .err (fsbNotDivisibleError 7 4) ∧
    StateTranslation.new 4 ⟨.plain, [0, 0, 0, 0, 0, 0, 0, 0], []⟩ none =
      .ok (.plain [0, 0, 0, 0, 0, 0, 0, 0] 4) :=
  ⟨(stateTranslation_new_plain_divisibility 4 ⟨.plain, [0, 0, 0, 0, 0, 0, 0], []⟩
      none (by decide) rfl).1 (by decide),
   (stateTranslation_new_plain_divisibility 4 ⟨.plain, [0, 0, 0, 0, 0, 0, 0, 0], []⟩
      none (by decide) rfl).2 (by decide)⟩

/-- Claim C7: for every target, resolved value and `n ≥ 0`, a single
`gather_repeated` with count `n` produces a target byte-identical to applying
`gather_one` `n` times sequentially. -/
theorem gather_repeated_eq_gather_one_iterated (target value : List Byte) (n : Nat) :
    FixedSizeBinaryGatherer.gather_repeated target value n =
      gatherOneNTimes target value n := by
  induction n generalizing target with
  | zero => rfl
  | succ n ih =>
    simp only [FixedSizeBinaryGatherer.gather_repeated, gatherOneNTimes,
      FixedSizeBinaryGatherer.gather_one]
    exact ih (target ++ value)

/-- Claim C8: the claim says skipping `n` then extracting `m` equals extracting
`n + m` and discarding the first `n`.  Because the no-validity Plain arm of
`decode_plain_encoded` passes `self.size` instead of `limit` as the element
count, with `size = 1`, page `[1,2,3]`, `n = m = 1`, skip-then-extract yields
the element `[2]` while extract-two-then-drop-one yields `[1].drop 1 = []`. -/
theorem skip_extract_inconsistency :
    StateTranslation.extend_from_state 1 ((StateTranslation.plain [1, 2, 3] 1).skip_in_place 1)
      (BinaryDecoder.with_capacity 1) none 1 =
      .ok (.plain [3] 1, ((⟨[2], 1⟩ : FixedSizeBinary), [])) ∧
    StateTranslation.extend_from_state 1 (.plain [1, 2, 3] 1)
      (BinaryDecoder.with_capacity 1) none 2 =
      .ok (.plain [2, 3] 1, ((⟨[1], 1⟩ : FixedSizeBinary), [])) ∧
    ([2] : List Byte) ≠ [1].drop 1 := by decide

/-- Claim C10: any call of `decode_dictionary_encoded` whose dictionary buffer
is shorter than `size` bytes panics while slicing the null placeholder
`&dict[..size]`, before any decoding and for every validity option. -/
theorem decode_dictionary_short_dict_panics (size : Nat) (st : DecodedState)
    (idxs : List Nat) (pv : Option (List Bool)) (dict : List Byte) (limit : Nat)
    (h : dict.length < size) :
    BinaryDecoder.decode_dictionary_encoded size st idxs pv dict limit = .panic := by
  unfold BinaryDecoder.decode_dictionary_encoded
  have hnone : sliceRange dict 0 size = none := by
    unfold sliceRange
    rw [if_neg]
    omega
  rw [hnone]

/-- Witness for C10: the empty dictionary with `size = 1` panics even with no
page-validity and `limit = 0`. -/
theorem decode_dictionary_short_dict_panics_witness :
    BinaryDecoder.decode_dictionary_encoded 1 (BinaryDecoder.with_capacity 1)
      [] none [] 0 = .panic :=
  decode_dictionary_short_dict_panics 1 (BinaryDecoder.with_capacity 1)
    [] none [] 0 (by decide)

theorem take_eq_replicate_of_le_takeWhile (b : Bool) :
    ∀ (l : List Bool) (n : Nat),
      n ≤ (l.takeWhile (fun x => x == b)).length → l.take n = List.replicate n b := by
  intro l
  induction l with
  | nil =>
    intro n h
    simp only [List.takeWhile_nil, List.length_nil, Nat.le_zero] at h
    subst h
    rfl
  | cons x l ih =>
    intro n h
    rw [List.takeWhile_cons] at h
    by_cases hx : x == b
    · rw [if_pos hx] at h
      cases n with
      | zero => rfl
      | succ n =>
        simp only [List.length_cons, Nat.succ_le_succ_iff] at h
        have hxb : x = b := beq_iff_eq.mp hx
        subst hxb
        simp only [List.take_succ_cons, List.replicate_succ]
        rw [ih n h]
    · rw [if_neg hx] at h
      simp only [List.length_nil, Nat.le_zero] at h
      subst h
      rfl

theorem trueCount_append (l₁ l₂ : List Bool) :
    trueCount (l₁ ++ l₂) = trueCount l₁ + trueCount l₂ := by
  induction l₁ with
  | nil => simp [trueCount]
  | cons x l ih =>
    cases x
    · simp [trueCount, ih]
    · simp [trueCount, ih]
      omega

theorem trueCount_replicate_true (n : Nat) : trueCount (List.replicate n true) = n := by
  induction n with
  | zero => rfl
  | succ n ih => simp [List.replicate_succ, trueCount, ih]

theorem trueCount_replicate_false (n : Nat) : trueCount (List.replicate n false) = 0 := by
  induction n with
  | zero => rfl
  | succ n ih => simp [List.replicate_succ, trueCount, ih]

theorem interleaveSpec_replicate_true (size : Nat) :
    ∀ (n : Nat) (pv : List Bool) (src : List Byte),
      interleaveSpec size (List.replicate n true ++ pv) src =
        src.take (n * size) ++ interleaveSpec size pv (src.drop (n * size)) := by
  intro n
  induction n with
  | zero => intro pv src; simp
  | succ n ih =>
    intro pv src
    have hm : (n + 1) * size = size + n * size := by
      rw [Nat.succ_mul, Nat.add_comm]
    rw [List.replicate_succ, List.cons_append]
    have step : interleaveSpec size (true :: (List.replicate n true ++ pv)) src =
        src.take size ++ interleaveSpec size (List.replicate n true ++ pv) (src.drop size) := rfl
    rw [step, ih, hm, List.take_add, ← List.drop_drop, List.append_assoc]

theorem interleaveSpec_replicate_false (size : Nat) :
    ∀ (n : Nat) (pv : List Bool) (src : List Byte),
      interleaveSpec size (List.replicate n false ++ pv) src =
        List.replicate (n * size) 0 ++ interleaveSpec size pv src := by
  intro n
  induction n with
  | zero => intro pv src; simp
  | succ n ih =>
    intro pv src
    have hm : (n + 1) * size = size + n * size := by
      rw [Nat.succ_mul, Nat.add_comm]
    rw [List.replicate_succ, List.cons_append]
    have step : interleaveSpec size (false :: (List.replicate n false ++ pv)) src =
        List.replicate size 0 ++ interleaveSpec size (List.replicate n false ++ pv) src := rfl
    rw [step, ih, hm, List.replicate_add, List.append_assoc]

theorem interleaveSpec_length (size : Nat) :
    ∀ (pv : List Bool) (src : List Byte), size * trueCount pv ≤ src.length →
      (interleaveSpec size pv src).length = size * pv.length := by
  intro pv
  induction pv with
  | nil => intro src _; simp [interleaveSpec]
  | cons b pv ih =>
    intro src h
    cases b
    · have step : interleaveSpec size (false :: pv) src =
          List.replicate size 0 ++ interleaveSpec size pv src := rfl
      have h' : size * trueCount pv ≤ src.length := by
        rw [show trueCount (false :: pv) = trueCount pv from rfl] at h
        exact h
      rw [step]
      simp only [List.length_append, List.length_replicate]
      rw [ih src h']
      simp only [List.length_cons, Nat.mul_succ]
      omega
    · have step : interleaveSpec size (true :: pv) src =
          src.take size ++ interleaveSpec size pv (src.drop size) := rfl
      have h' : size * trueCount pv + size ≤ src.length := by
        rw [show trueCount (true :: pv) = trueCount pv + 1 from rfl, Nat.mul_succ] at h
        exact h
      rw [step]
      simp only [List.length_append, List.length_take]
      rw [ih (src.drop size) (by rw [List.length_drop]; omega)]
      simp only [List.length_cons, Nat.mul_succ]
      omega

theorem hybridrle_to_target_ok_of_inRange (dict : List Byte) (size i : Nat)
    (h : inRange dict size i) :
    FixedSizeBinaryGatherer.hybridrle_to_target dict size i =
      .ok ((dict.drop (i * size)).take size) := by
  obtain ⟨h1, h2⟩ := h
  have hsub : (i + 1) * size - i * size = size := by
    rw [Nat.succ_mul]
    omega
  have hsl : sliceRange dict (i * size) ((i + 1) * size) =
      some ((dict.drop (i * size)).take size) := by
    unfold sliceRange
    rw [if_pos ⟨by rw [Nat.succ_mul]; omega, h2⟩, hsub]
  unfold FixedSizeBinaryGatherer.hybridrle_to_target
  rw [if_neg (by omega), hsl]

theorem hybridrle_to_target_ok_length (dict : List Byte) (size i : Nat) (v : List Byte)
    (h : FixedSizeBinaryGatherer.hybridrle_to_target dict size i = .ok v) :
    v.length = size := by
  unfold FixedSizeBinaryGatherer.hybridrle_to_target at h
  by_cases hge : i * size ≥ dict.length
  · rw [if_pos hge] at h
    exact PRes.noConfusion h
  · rw [if_neg hge] at h
    cases hsl : sliceRange dict (i * size) ((i + 1) * size) with
    | none =>
      rw [hsl] at h
      exact PRes.noConfusion h
    | some s =>
      rw [hsl] at h
      injection h with hv
      subst hv
      unfold sliceRange at hsl
      by_cases hc : i * size ≤ (i + 1) * size ∧ (i + 1) * size ≤ dict.length
      · rw [if_pos hc] at hsl
        injection hsl with hsv
        subst hsv
        rw [List.length_take, List.length_drop]
        have h2 := hc.2
        rw [Nat.succ_mul] at h2 ⊢
        omega
      · rw [if_neg hc] at hsl
        exact Option.noConfusion hsl

theorem gathered_push_n_ok (dict : List Byte) (size : Nat) :
    ∀ (n : Nat) (idxs : List Nat) (target : List Byte),
      n ≤ idxs.length → (∀ i ∈ idxs.take n, inRange dict size i) →
      GatheredHybridRle.push_n dict size idxs target n =
        .ok (idxs.drop n, target ++ resolveConcat dict size (idxs.take n)) := by
  intro n
  induction n with
  | zero =>
    intro idxs t _ _
    simp [GatheredHybridRle.push_n, resolveConcat]
  | succ n ih =>
    intro idxs t hlen hin
    cases idxs with
    | nil => simp at hlen
    | cons i idxs =>
      have hi : inRange dict size i := hin i (by simp)
      have step : GatheredHybridRle.push_n dict size (i :: idxs) t (n + 1) =
          GatheredHybridRle.push_n dict size idxs
            (FixedSizeBinaryGatherer.gather_one t ((dict.drop (i * size)).take size)) n := by
      {
        show (match FixedSizeBinaryGatherer.hybridrle_to_target dict size i with
          | .ok v =>
            GatheredHybridRle.push_n dict size idxs
              (FixedSizeBinaryGatherer.gather_one t v) n
          | .err e => .err e (i :: idxs, t)
          | .panic => .panic) = _
        rw [hybridrle_to_target_ok_of_inRange dict size i hi]
      }
      rw [step, ih idxs _ (by simpa using hlen) (fun j hj => hin j (by simp [hj]))]
      simp [resolveConcat, FixedSizeBinaryGatherer.gather_one, List.append_assoc]

theorem gathered_push_n_growth (dict : List Byte) (size : Nat) :
    ∀ (n : Nat) (idxs : List Nat) (target : List Byte) (idxs' : List Nat)
      (target' : List Byte),
      GatheredHybridRle.push_n dict size idxs target n = .ok (idxs', target') →
      target'.length = target.length + n * size := by
  intro n
  induction n with
  | zero =>
    intro idxs t idxs' t' h
    simp only [GatheredHybridRle.push_n, DOut.ok.injEq, Prod.mk.injEq] at h
    rw [← h.2]
    simp
  | succ n ih =>
    intro idxs t idxs' t' h
    cases idxs with
    | nil => exact DOut.noConfusion h
    | cons i is =>
      have hm : GatheredHybridRle.push_n dict size (i :: is) t (n + 1) =
          (match FixedSizeBinaryGatherer.hybridrle_to_target dict size i with
            | .ok v =>
              GatheredHybridRle.push_n dict size is
                (FixedSizeBinaryGatherer.gather_one t v) n
            | .err e => .err e (i :: is, t)
            | .panic => .panic) := rfl
      rw [hm] at h
      cases hr : FixedSizeBinaryGatherer.hybridrle_to_target dict size i with
      | ok v =>
        rw [hr] at h
        have hv := hybridrle_to_target_ok_length dict size i v hr
        have := ih is _ idxs' t' h
        simp only [FixedSizeBinaryGatherer.gather_one, List.length_append] at this
        rw [this, hv, Nat.succ_mul]
        omega
      | err e =>
        rw [hr] at h
        exact DOut.noConfusion h
      | panic =>
        rw [hr] at h
        exact DOut.noConfusion h

theorem flatten_replicate_length (n : Nat) (v : List Byte) :
    (List.replicate n v).flatten.length = n * v.length := by
  induction n with
  | zero => simp
  | succ n ih =>
    rw [List.replicate_succ, List.flatten_cons, List.length_append, ih, Nat.succ_mul]
    omega

theorem gather_repeated_eq_append (value : List Byte) :
    ∀ (n : Nat) (target : List Byte),
      FixedSizeBinaryGatherer.gather_repeated target value n =
        target ++ (List.replicate n value).flatten := by
  intro n
  induction n with
  | zero => intro t; simp [FixedSizeBinaryGatherer.gather_repeated]
  | succ n ih =>
    intro t
    rw [show FixedSizeBinaryGatherer.gather_repeated t value (n + 1) =
        FixedSizeBinaryGatherer.gather_repeated (t ++ value) value n from rfl, ih,
      List.replicate_succ, List.flatten_cons, List.append_assoc]

theorem gatherInterleaveSpec_replicate_true (dict : List Byte) (size : Nat)
    (nv : List Byte) :
    ∀ (n : Nat) (pv : List Bool) (idxs : List Nat), n ≤ idxs.length →
      gatherInterleaveSpec dict size nv (List.replicate n true ++ pv) idxs =
        resolveConcat dict size (idxs.take n) ++
          gatherInterleaveSpec dict size nv pv (idxs.drop n) := by
  intro n
  induction n with
  | zero => intro pv idxs _; simp [resolveConcat]
  | succ n ih =>
    intro pv idxs h
    cases idxs with
    | nil => simp at h
    | cons i idxs =>
      rw [List.replicate_succ, List.cons_append]
      have step : gatherInterleaveSpec dict size nv
            (true :: (List.replicate n true ++ pv)) (i :: idxs) =
          (dict.drop (i * size)).take size ++
            gatherInterleaveSpec dict size nv (List.replicate n true ++ pv) idxs := rfl
      rw [step, ih pv idxs (by simpa using h)]
      simp [resolveConcat, List.append_assoc]

theorem gatherInterleaveSpec_replicate_false (dict : List Byte) (size : Nat)
    (nv : List Byte) :
    ∀ (n : Nat) (pv : List Bool) (idxs : List Nat),
      gatherInterleaveSpec dict size nv (List.replicate n false ++ pv) idxs =
        (List.replicate n nv).flatten ++ gatherInterleaveSpec dict size nv pv idxs := by
  intro n
  induction n with
  | zero => intro pv idxs; simp
  | succ n ih =>
    intro pv idxs
    rw [List.replicate_succ, List.cons_append]
    have step : gatherInterleaveSpec dict size nv
          (false :: (List.replicate n false ++ pv)) idxs =
        nv ++ gatherInterleaveSpec dict size nv (List.replicate n false ++ pv) idxs := rfl
    rw [step, ih, List.replicate_succ, List.flatten_cons, List.append_assoc]

theorem takeWhile_self_length_pos (bb : Bool) (rest : List Bool) :
    0 < ((bb :: rest).takeWhile (fun x => x == bb)).length := by
  rw [List.takeWhile_cons]
  simp

theorem extendFromDecoderFuel_zero_limit {σ : Type} (c : BatchableCollector σ)
    (fuel : Nat) (pv : List Bool) (s : σ) (target : List Byte) (bitmap : List Bool) :
    extendFromDecoderFuel c fuel pv 0 s target bitmap = .ok (s, target, bitmap) := by
  cases fuel <;> cases pv <;> rfl

theorem extendFromDecoderFuel_cons {σ : Type} (c : BatchableCollector σ)
    (fuel l : Nat) (bb : Bool) (rest : List Bool) (s : σ) (target : List Byte)
    (bitmap : List Bool) (run : Nat)
    (hrun : run = Nat.min (l + 1) (((bb :: rest).takeWhile (fun x => x == bb)).length)) :
    extendFromDecoderFuel c (fuel + 1) (bb :: rest) (l + 1) s target bitmap =
      match (if bb then c.pushN s target run else c.pushNNulls s target run) with
      | .ok (s', t') =>
        extendFromDecoderFuel c fuel ((bb :: rest).drop run) (l + 1 - run) s' t'
          (bitmap ++ List.replicate run bb)
      | .err e (s', t') => .err e (s', t', bitmap)
      | .panic => .panic := by
  subst hrun
  rfl

theorem extendFromDecoderFuel_cons_ok {σ : Type} (c : BatchableCollector σ)
    (fuel l : Nat) (bb : Bool) (rest : List Bool) (s : σ) (target : List Byte)
    (bitmap : List Bool) (run : Nat) (s' : σ) (t' : List Byte)
    (hrun : run = Nat.min (l + 1) (((bb :: rest).takeWhile (fun x => x == bb)).length))
    (hpush : (if bb then c.pushN s target run else c.pushNNulls s target run) =
      .ok (s', t')) :
    extendFromDecoderFuel c (fuel + 1) (bb :: rest) (l + 1) s target bitmap =
      extendFromDecoderFuel c fuel ((bb :: rest).drop run) (l + 1 - run) s' t'
        (bitmap ++ List.replicate run bb) := by
  rw [extendFromDecoderFuel_cons c fuel l bb rest s target bitmap run hrun, hpush]

theorem extendFromDecoderFuel_plain_char (size : Nat) (hs : 0 < size) :
    ∀ (fuel limit : Nat) (pv : List Bool) (slice target : List Byte) (bitmap : List Bool),
      limit ≤ fuel → limit ≤ pv.length →
      size * trueCount (pv.take limit) ≤ slice.length →
      extendFromDecoderFuel (plainCollector size) fuel pv limit slice target bitmap =
        .ok (slice.drop (size * trueCount (pv.take limit)),
             target ++ interleaveSpec size (pv.take limit) slice,
             bitmap ++ pv.take limit) := by
  intro fuel
  induction fuel with
  | zero =>
    intro limit pv slice target bitmap hf _ _
    have h0 : limit = 0 := Nat.le_zero.mp hf
    subst h0
    rw [extendFromDecoderFuel_zero_limit]
    simp [trueCount, interleaveSpec]
  | succ fuel ih =>
    intro limit pv slice target bitmap hf hp hsl
    cases limit with
    | zero =>
      rw [extendFromDecoderFuel_zero_limit]
      simp [trueCount, interleaveSpec]
    | succ l =>
      cases pv with
      | nil => simp at hp
      | cons bb rest =>
        set run := Nat.min (l + 1) (((bb :: rest).takeWhile (fun x => x == bb)).length)
          with hrun
        have h1 : 1 ≤ run := by
          rw [hrun]
          exact Nat.le_min.mpr ⟨by omega, takeWhile_self_length_pos bb rest⟩
        have hrle : run ≤ l + 1 := by
          rw [hrun]
          exact Nat.min_le_left _ _
        have hrtw : run ≤ ((bb :: rest).takeWhile (fun x => x == bb)).length := by
          rw [hrun]
          exact Nat.min_le_right _ _
        have htake_run : (bb :: rest).take run = List.replicate run bb :=
          take_eq_replicate_of_le_takeWhile bb _ run hrtw
        have hdecomp : (bb :: rest).take (l + 1) =
            List.replicate run bb ++ ((bb :: rest).drop run).take (l + 1 - run) := by
          conv_lhs => rw [show l + 1 = run + (l + 1 - run) by omega]
          rw [List.take_add, htake_run]
        have hf' : l + 1 - run ≤ fuel := by omega
        have hp' : l + 1 - run ≤ ((bb :: rest).drop run).length := by
          rw [List.length_drop]
          simp only [List.length_cons] at hp ⊢
          omega
        cases bb
        · -- run of nulls
          have hnulls : ((if false then (plainCollector size).pushN slice target run
              else (plainCollector size).pushNNulls slice target run)) =
              .ok (slice, target ++ List.replicate (run * size) 0) := by
            rw [if_neg (by decide)]
            rfl
          rw [extendFromDecoderFuel_cons_ok (plainCollector size) fuel l false rest slice
            target bitmap run slice (target ++ List.replicate (run * size) 0) hrun hnulls]
          have htc : trueCount ((false :: rest).take (l + 1)) =
              trueCount (((false :: rest).drop run).take (l + 1 - run)) := by
            rw [hdecomp, trueCount_append, trueCount_replicate_false]
            omega
          rw [ih (l + 1 - run) ((false :: rest).drop run) slice
            (target ++ List.replicate (run * size) 0) (bitmap ++ List.replicate run false)
            hf' hp' (by rw [← htc]; exact hsl)]
          simp only [DOut.ok.injEq, Prod.mk.injEq]
          refine ⟨by rw [htc], ?_, ?_⟩
          · rw [hdecomp, interleaveSpec_replicate_false, List.append_assoc]
          · rw [hdecomp, List.append_assoc]
        · -- run of values
          have htc : trueCount ((true :: rest).take (l + 1)) =
              run + trueCount (((true :: rest).drop run).take (l + 1 - run)) := by
            rw [hdecomp, trueCount_append, trueCount_replicate_true]
          have hsl2 : size * run +
              size * trueCount (((true :: rest).drop run).take (l + 1 - run)) ≤
              slice.length := by
            rw [← Nat.mul_add, ← htc]
            exact hsl
          have hmin : Nat.min run (slice.length / size) = run := by
            refine Nat.min_eq_left ?_
            rw [Nat.le_div_iff_mul_le hs]
            calc run * size = size * run := Nat.mul_comm _ _
            _ ≤ slice.length := by omega
          have hpush : ((if true then (plainCollector size).pushN slice target run
              else (plainCollector size).pushNNulls slice target run)) =
              .ok (slice.drop (run * size), target ++ slice.take (run * size)) := by
            rw [if_pos rfl]
            show DOut.ok (FixedSizeBinaryCollector.push_n size slice target run) = _
            unfold FixedSizeBinaryCollector.push_n
            rw [hmin]
          rw [extendFromDecoderFuel_cons_ok (plainCollector size) fuel l true rest slice
            target bitmap run (slice.drop (run * size)) (target ++ slice.take (run * size))
            hrun hpush]
          have hsl' : size * trueCount (((true :: rest).drop run).take (l + 1 - run)) ≤
              (slice.drop (run * size)).length := by
            rw [List.length_drop]
            have hc : run * size = size * run := Nat.mul_comm _ _
            omega
          rw [ih (l + 1 - run) ((true :: rest).drop run) (slice.drop (run * size))
            (target ++ slice.take (run * size)) (bitmap ++ List.replicate run true)
            hf' hp' hsl']
          simp only [DOut.ok.injEq, Prod.mk.injEq]
          refine ⟨?_, ?_, ?_⟩
          · rw [List.drop_drop, htc, Nat.mul_add, Nat.mul_comm run size]
          · rw [hdecomp, interleaveSpec_replicate_true, List.append_assoc]
          · rw [hdecomp, List.append_assoc]

theorem extendFromDecoderFuel_cons_err {σ : Type} (c : BatchableCollector σ)
    (fuel l : Nat) (bb : Bool) (rest : List Bool) (s : σ) (target : List Byte)
    (bitmap : List Bool) (run : Nat) (e : ParquetError) (s' : σ) (t' : List Byte)
    (hrun : run = Nat.min (l + 1) (((bb :: rest).takeWhile (fun x => x == bb)).length))
    (hpush : (if bb then c.pushN s target run else c.pushNNulls s target run) =
      .err e (s', t')) :
    extendFromDecoderFuel c (fuel + 1) (bb :: rest) (l + 1) s target bitmap =
      .err e (s', t', bitmap) := by
  rw [extendFromDecoderFuel_cons c fuel l bb rest s target bitmap run hrun, hpush]

theorem extendFromDecoderFuel_cons_panic {σ : Type} (c : BatchableCollector σ)
    (fuel l : Nat) (bb : Bool) (rest : List Bool) (s : σ) (target : List Byte)
    (bitmap : List Bool) (run : Nat)
    (hrun : run = Nat.min (l + 1) (((bb :: rest).takeWhile (fun x => x == bb)).length))
    (hpush : (if bb then c.pushN s target run else c.pushNNulls s target run) = .panic) :
    extendFromDecoderFuel c (fuel + 1) (bb :: rest) (l + 1) s target bitmap = .panic := by
  rw [extendFromDecoderFuel_cons c fuel l bb rest s target bitmap run hrun, hpush]

theorem extendFromDecoderFuel_gathered_char (dict : List Byte) (size : Nat)
    (nv : List Byte) :
    ∀ (fuel limit : Nat) (pv : List Bool) (idxs : List Nat) (target : List Byte)
      (bitmap : List Bool),
      limit ≤ fuel → limit ≤ pv.length →
      trueCount (pv.take limit) ≤ idxs.length →
      (∀ i ∈ idxs.take (trueCount (pv.take limit)), inRange dict size i) →
      extendFromDecoderFuel (gatheredCollector dict size nv) fuel pv limit idxs
          target bitmap =
        .ok (idxs.drop (trueCount (pv.take limit)),
             target ++ gatherInterleaveSpec dict size nv (pv.take limit) idxs,
             bitmap ++ pv.take limit) := by
  intro fuel
  induction fuel with
  | zero =>
    intro limit pv idxs target bitmap hf _ _ _
    have h0 : limit = 0 := Nat.le_zero.mp hf
    subst h0
    rw [extendFromDecoderFuel_zero_limit]
    simp [trueCount, gatherInterleaveSpec]
  | succ fuel ih =>
    intro limit pv idxs target bitmap hf hp hi hr
    cases limit with
    | zero =>
      rw [extendFromDecoderFuel_zero_limit]
      simp [trueCount, gatherInterleaveSpec]
    | succ l =>
      cases pv with
      | nil => simp at hp
      | cons bb rest =>
        set run := Nat.min (l + 1) (((bb :: rest).takeWhile (fun x => x == bb)).length)
          with hrun
        have h1 : 1 ≤ run := by
          rw [hrun]
          exact Nat.le_min.mpr ⟨by omega, takeWhile_self_length_pos bb rest⟩
        have hrle : run ≤ l + 1 := by
          rw [hrun]
          exact Nat.min_le_left _ _
        have hrtw : run ≤ ((bb :: rest).takeWhile (fun x => x == bb)).length := by
          rw [hrun]
          exact Nat.min_le_right _ _
        have htake_run : (bb :: rest).take run = List.replicate run bb :=
          take_eq_replicate_of_le_takeWhile bb _ run hrtw
        have hdecomp : (bb :: rest).take (l + 1) =
            List.replicate run bb ++ ((bb :: rest).drop run).take (l + 1 - run) := by
          conv_lhs => rw [show l + 1 = run + (l + 1 - run) by omega]
          rw [List.take_add, htake_run]
        have hf' : l + 1 - run ≤ fuel := by omega
        have hp' : l + 1 - run ≤ ((bb :: rest).drop run).length := by
          rw [List.length_drop]
          simp only [List.length_cons] at hp ⊢
          omega
        cases bb
        · -- run of nulls
          have hpush : ((if false then (gatheredCollector dict size nv).pushN idxs target run
              else (gatheredCollector dict size nv).pushNNulls idxs target run)) =
              .ok (idxs, target ++ (List.replicate run nv).flatten) := by
            rw [if_neg (by decide)]
            show DOut.ok (idxs, FixedSizeBinaryGatherer.gather_repeated target nv run) = _
            rw [gather_repeated_eq_append]
          rw [extendFromDecoderFuel_cons_ok (gatheredCollector dict size nv) fuel l false
            rest idxs target bitmap run idxs (target ++ (List.replicate run nv).flatten)
            hrun hpush]
          have htc : trueCount ((false :: rest).take (l + 1)) =
              trueCount (((false :: rest).drop run).take (l + 1 - run)) := by
            rw [hdecomp, trueCount_append, trueCount_replicate_false]
            omega
          rw [ih (l + 1 - run) ((false :: rest).drop run) idxs
            (target ++ (List.replicate run nv).flatten) (bitmap ++ List.replicate run false)
            hf' hp' (by rw [← htc]; exact hi) (by rw [← htc]; exact hr)]
          simp only [DOut.ok.injEq, Prod.mk.injEq]
          refine ⟨by rw [htc], ?_, ?_⟩
          · rw [hdecomp, gatherInterleaveSpec_replicate_false, List.append_assoc]
          · rw [hdecomp, List.append_assoc]
        · -- run of values
          have htc : trueCount ((true :: rest).take (l + 1)) =
              run + trueCount (((true :: rest).drop run).take (l + 1 - run)) := by
            rw [hdecomp, trueCount_append, trueCount_replicate_true]
          have hrt : run ≤ trueCount ((true :: rest).take (l + 1)) := by omega
          have hrunlen : run ≤ idxs.length := le_trans hrt hi
          have hinrun : ∀ i ∈ idxs.take run, inRange dict size i := by
            intro i hmem
            apply hr
            have heq : idxs.take run =
                (idxs.take (trueCount ((true :: rest).take (l + 1)))).take run := by
              rw [List.take_take, Nat.min_eq_left hrt]
            rw [heq] at hmem
            exact List.take_subset _ _ hmem
          have hpush : ((if true then (gatheredCollector dict size nv).pushN idxs target run
              else (gatheredCollector dict size nv).pushNNulls idxs target run)) =
              .ok (idxs.drop run, target ++ resolveConcat dict size (idxs.take run)) := by
            rw [if_pos rfl]
            exact gathered_push_n_ok dict size run idxs target hrunlen hinrun
          rw [extendFromDecoderFuel_cons_ok (gatheredCollector dict size nv) fuel l true
            rest idxs target bitmap run (idxs.drop run)
            (target ++ resolveConcat dict size (idxs.take run)) hrun hpush]
          have hidecomp : idxs.take (trueCount ((true :: rest).take (l + 1))) =
              idxs.take run ++
                (idxs.drop run).take
                  (trueCount (((true :: rest).drop run).take (l + 1 - run))) := by
            conv_lhs => rw [htc]
            rw [List.take_add]
          have hi' : trueCount (((true :: rest).drop run).take (l + 1 - run)) ≤
              (idxs.drop run).length := by
            rw [List.length_drop]
            omega
          have hr' : ∀ i ∈ (idxs.drop run).take
              (trueCount (((true :: rest).drop run).take (l + 1 - run))),
              inRange dict size i := by
            intro i hmem
            apply hr
            rw [hidecomp]
            exact List.mem_append_right _ hmem
          rw [ih (l + 1 - run) ((true :: rest).drop run) (idxs.drop run)
            (target ++ resolveConcat dict size (idxs.take run))
            (bitmap ++ List.replicate run true) hf' hp' hi' hr']
          simp only [DOut.ok.injEq, Prod.mk.injEq]
          refine ⟨?_, ?_, ?_⟩
          · rw [List.drop_drop, htc]
          · rw [hdecomp, gatherInterleaveSpec_replicate_true dict size nv run _ _ hrunlen,
              List.append_assoc]
          · rw [hdecomp, List.append_assoc]

theorem extendFromDecoderFuel_gathered_growth (dict : List Byte) (size : Nat)
    (nv : List Byte) (hnv : nv.length = size) :
    ∀ (fuel limit : Nat) (pv : List Bool) (idxs : List Nat) (target : List Byte)
      (bitmap : List Bool) (idxs' : List Nat) (target' : List Byte) (bitmap' : List Bool),
      extendFromDecoderFuel (gatheredCollector dict size nv) fuel pv limit idxs
          target bitmap = .ok (idxs', target', bitmap') →
      target'.length = target.length + size * limit ∧
      bitmap'.length = bitmap.length + limit := by
  intro fuel
  induction fuel with
  | zero =>
    intro limit pv idxs target bitmap idxs' target' bitmap' h
    cases limit with
    | zero =>
      rw [extendFromDecoderFuel_zero_limit] at h
      simp only [DOut.ok.injEq, Prod.mk.injEq] at h
      obtain ⟨-, h2, h3⟩ := h
      subst h2
      subst h3
      simp
    | succ l =>
      cases pv with
      | nil =>
        rw [show extendFromDecoderFuel (gatheredCollector dict size nv) 0 ([] : List Bool)
          (l + 1) idxs target bitmap = DOut.panic from rfl] at h
        exact DOut.noConfusion h
      | cons bb rest =>
        rw [show extendFromDecoderFuel (gatheredCollector dict size nv) 0 (bb :: rest)
          (l + 1) idxs target bitmap = DOut.panic from rfl] at h
        exact DOut.noConfusion h
  | succ fuel ih =>
    intro limit pv idxs target bitmap idxs' target' bitmap' h
    cases limit with
    | zero =>
      rw [extendFromDecoderFuel_zero_limit] at h
      simp only [DOut.ok.injEq, Prod.mk.injEq] at h
      obtain ⟨-, h2, h3⟩ := h
      subst h2
      subst h3
      simp
    | succ l =>
      cases pv with
      | nil =>
        rw [show extendFromDecoderFuel (gatheredCollector dict size nv) (fuel + 1)
          ([] : List Bool) (l + 1) idxs target bitmap = DOut.panic from rfl] at h
        exact DOut.noConfusion h
      | cons bb rest =>
        set run := Nat.min (l + 1) (((bb :: rest).takeWhile (fun x => x == bb)).length)
          with hrun
        have h1 : 1 ≤ run := by
          rw [hrun]
          exact Nat.le_min.mpr ⟨by omega, takeWhile_self_length_pos bb rest⟩
        have hrle : run ≤ l + 1 := by
          rw [hrun]
          exact Nat.min_le_left _ _
        have hmul : size * (l + 1 - run) + size * run = size * (l + 1) := by
          rw [← Nat.mul_add]
          congr 1
          omega
        cases bb
        · -- run of nulls
          have hpush : ((if false then (gatheredCollector dict size nv).pushN idxs target run
              else (gatheredCollector dict size nv).pushNNulls idxs target run)) =
              .ok (idxs, target ++ (List.replicate run nv).flatten) := by
            rw [if_neg (by decide)]
            show DOut.ok (idxs, FixedSizeBinaryGatherer.gather_repeated target nv run) = _
            rw [gather_repeated_eq_append]
          rw [extendFromDecoderFuel_cons_ok (gatheredCollector dict size nv) fuel l false
            rest idxs target bitmap run idxs (target ++ (List.replicate run nv).flatten)
            hrun hpush] at h
          obtain ⟨ht, hb⟩ := ih (l + 1 - run) ((false :: rest).drop run) idxs
            (target ++ (List.replicate run nv).flatten) (bitmap ++ List.replicate run false)
            idxs' target' bitmap' h
          constructor
          · rw [ht, List.length_append, flatten_replicate_length, hnv,
              Nat.mul_comm run size]
            omega
          · rw [hb, List.length_append, List.length_replicate]
            omega
        · -- run of values
          cases hpn : GatheredHybridRle.push_n dict size idxs target run with
          | ok pr =>
            obtain ⟨is0, t0⟩ := pr
            have hpush : ((if true then (gatheredCollector dict size nv).pushN idxs target run
                else (gatheredCollector dict size nv).pushNNulls idxs target run)) =
                .ok (is0, t0) := by
              rw [if_pos rfl]
              exact hpn
            rw [extendFromDecoderFuel_cons_ok (gatheredCollector dict size nv) fuel l true
              rest idxs target bitmap run is0 t0 hrun hpush] at h
            have hg := gathered_push_n_growth dict size run idxs target is0 t0 hpn
            obtain ⟨ht, hb⟩ := ih (l + 1 - run) ((true :: rest).drop run) is0 t0
              (bitmap ++ List.replicate run true) idxs' target' bitmap' h
            constructor
            · rw [ht, hg, Nat.mul_comm run size]
              omega
            · rw [hb, List.length_append, List.length_replicate]
              omega
          | err e pr =>
            obtain ⟨is0, t0⟩ := pr
            have hpush : ((if true then (gatheredCollector dict size nv).pushN idxs target run
                else (gatheredCollector dict size nv).pushNNulls idxs target run)) =
                .err e (is0, t0) := by
              rw [if_pos rfl]
              exact hpn
            rw [extendFromDecoderFuel_cons_err (gatheredCollector dict size nv) fuel l true
              rest idxs target bitmap run e is0 t0 hrun hpush] at h
            exact DOut.noConfusion h
          | panic =>
            have hpush : ((if true then (gatheredCollector dict size nv).pushN idxs target run
                else (gatheredCollector dict size nv).pushNNulls idxs target run)) =
                .panic := by
              rw [if_pos rfl]
              exact hpn
            rw [extendFromDecoderFuel_cons_panic (gatheredCollector dict size nv) fuel l true
              rest idxs target bitmap run hrun hpush] at h
            exact DOut.noConfusion h

instance (dict : List Byte) (size i : Nat) : Decidable (inRange dict size i) :=
  inferInstanceAs (Decidable (i * size < dict.length ∧ (i + 1) * size ≤ dict.length))

theorem sliceRange_zero (dict : List Byte) (size : Nat) (h : size ≤ dict.length) :
    sliceRange dict 0 size = some (dict.take size) := by
  unfold sliceRange
  rw [if_pos ⟨Nat.zero_le _, h⟩]
  simp

theorem sliceRange_zero_some (dict : List Byte) (size : Nat) (nv : List Byte)
    (h : sliceRange dict 0 size = some nv) : nv.length = size := by
  unfold sliceRange at h
  by_cases hc : 0 ≤ size ∧ size ≤ dict.length
  · rw [if_pos hc] at h
    injection h with hv
    subst hv
    obtain ⟨-, h2⟩ := hc
    rw [List.length_take, List.length_drop]
    omega
  · rw [if_neg hc] at h
    exact Option.noConfusion h

theorem decode_plain_encoded_validity_eq (size : Nat) (st : DecodedState)
    (slice : List Byte) (pv : List Bool) (limit : Nat) :
    BinaryDecoder.decode_plain_encoded size st slice (some pv) limit =
      (match extend_from_decoder (plainCollector size) pv limit slice st.1.values st.2 with
       | .ok (s, t, b) => DOut.ok ((⟨t, st.1.size⟩, b), s)
       | .err e (s, t, b) => DOut.err e ((⟨t, st.1.size⟩, b), s)
       | .panic => DOut.panic) := rfl

theorem decode_dictionary_encoded_short_eq (size : Nat) (st : DecodedState)
    (idxs : List Nat) (pv : Option (List Bool)) (dict : List Byte) (limit : Nat)
    (hnv : sliceRange dict 0 size = none) :
    BinaryDecoder.decode_dictionary_encoded size st idxs pv dict limit = .panic := by
  unfold BinaryDecoder.decode_dictionary_encoded
  rw [hnv]

theorem decode_dictionary_encoded_validity_eq (size : Nat) (st : DecodedState)
    (idxs : List Nat) (pv : List Bool) (dict : List Byte) (limit : Nat) (nv : List Byte)
    (hnv : sliceRange dict 0 size = some nv) :
    BinaryDecoder.decode_dictionary_encoded size st idxs (some pv) dict limit =
      (match extend_from_decoder (gatheredCollector dict size nv) pv limit idxs
          st.1.values st.2 with
       | .ok (i, t, b) => DOut.ok ((⟨t, st.1.size⟩, b), i)
       | .err e (i, t, b) => DOut.err e ((⟨t, st.1.size⟩, b), i)
       | .panic => DOut.panic) := by
  unfold BinaryDecoder.decode_dictionary_encoded
  rw [hnv]

/-- Claim C5 (amended): the null-interleaving law holds for the Plain decoding
path: for every validity pattern and Plain byte source holding at least the
valid positions' elements, decoding with a page-validity stream appends chunks
that at valid positions equal the source elements in order and at null
positions are all-zero of width `size`, with the bitmap extended by exactly the
consumed validity pattern.  (The Dictionary path fills null positions with the
dictionary's first element instead, which refutes the claim's
"every value source" form; see the counterexample.) -/
theorem decode_plain_validity_interleaving (size : Nat) (st : DecodedState)
    (slice : List Byte) (pv : List Bool) (limit : Nat)
    (hs : 0 < size) (hp : limit ≤ pv.length)
    (hsl : size * trueCount (pv.take limit) ≤ slice.length) :
    BinaryDecoder.decode_plain_encoded size st slice (some pv) limit =
      .ok ((⟨st.1.values ++ interleaveSpec size (pv.take limit) slice, st.1.size⟩,
            st.2 ++ pv.take limit),
           slice.drop (size * trueCount (pv.take limit))) := by
  rw [decode_plain_encoded_validity_eq size st slice pv limit,
    show extend_from_decoder (plainCollector size) pv limit slice st.1.values st.2 =
      extendFromDecoderFuel (plainCollector size) limit pv limit slice st.1.values st.2
      from rfl,
    extendFromDecoderFuel_plain_char size hs limit limit pv slice st.1.values st.2
      le_rfl hp hsl]

/-- Counterexample to claim C5 as stated over "every value source": on the
Dictionary path with dictionary `[7]` (size 1) and validity `[false]`, the null
position's chunk is the dictionary's first element `7`, not the all-zero chunk
the claim requires. -/
theorem decode_dictionary_null_chunk_not_zero :
    BinaryDecoder.decode_dictionary_encoded 1 (BinaryDecoder.with_capacity 1)
      [] (some [false]) [7] 1 =
      .ok (((⟨[7], 1⟩ : FixedSizeBinary), [false]), []) ∧
    ([7] : List Byte) ≠ List.replicate 1 0 := by decide

/-- Witness for C5 (amended), the spec's scenario: Plain bytes
`"abcd" ++ "efgh"`, `size = 4`, validity `[true, false, true]`, `limit = 3`
yields `"abcd" ++ "\0\0\0\0" ++ "efgh"` and bitmap `[1, 0, 1]`. -/
theorem decode_plain_validity_interleaving_witness :
    BinaryDecoder.decode_plain_encoded 4 (BinaryDecoder.with_capacity 4)
      [97, 98, 99, 100, 101, 102, 103, 104] (some [true, false, true]) 3 =
      .ok (((⟨[97, 98, 99, 100, 0, 0, 0, 0, 101, 102, 103, 104], 4⟩ : FixedSizeBinary),
            [true, false, true]), []) :=
  (decode_plain_validity_interleaving 4 (BinaryDecoder.with_capacity 4)
    [97, 98, 99, 100, 101, 102, 103, 104] [true, false, true] 3
    (by decide) (by decide) (by decide)).trans (by decide)

/-- Claim C9: on the Dictionary path with a page-validity stream, every null
position contributes the dictionary's first element (`dict.take size`, the
null placeholder `&dict[..size]`) to the value buffer through the gather path
(`gatherInterleaveSpec` places `dict.take size` at every `false` position),
while valid positions resolve the next index's chunk. -/
theorem decode_dictionary_validity_null_value (size : Nat) (st : DecodedState)
    (idxs : List Nat) (pv : List Bool) (dict : List Byte) (limit : Nat)
    (hd : size ≤ dict.length) (hp : limit ≤ pv.length)
    (hi : trueCount (pv.take limit) ≤ idxs.length)
    (hr : ∀ i ∈ idxs.take (trueCount (pv.take limit)), inRange dict size i) :
    BinaryDecoder.decode_dictionary_encoded size st idxs (some pv) dict limit =
      .ok ((⟨st.1.values ++
              gatherInterleaveSpec dict size (dict.take size) (pv.take limit) idxs,
            st.1.size⟩,
            st.2 ++ pv.take limit),
           idxs.drop (trueCount (pv.take limit))) := by
  rw [decode_dictionary_encoded_validity_eq size st idxs pv dict limit (dict.take size)
      (sliceRange_zero dict size hd),
    show extend_from_decoder (gatheredCollector dict size (dict.take size)) pv limit idxs
        st.1.values st.2 =
      extendFromDecoderFuel (gatheredCollector dict size (dict.take size)) limit pv limit
        idxs st.1.values st.2 from rfl,
    extendFromDecoderFuel_gathered_char dict size (dict.take size) limit limit pv idxs
      st.1.values st.2 le_rfl hp hi hr]

/-- Witness for C9: dictionary `[5, 6]` with `size = 1`, validity
`[true, false]`, index stream `[1]`: the valid position resolves to `6` and the
null position gets the dictionary's first element `5`. -/
theorem decode_dictionary_validity_null_value_witness :
    BinaryDecoder.decode_dictionary_encoded 1 (BinaryDecoder.with_capacity 1)
      [1] (some [true, false]) [5, 6] 2 =
      .ok (((⟨[6, 5], 1⟩ : FixedSizeBinary), [true, false]), []) :=
  (decode_dictionary_validity_null_value 1 (BinaryDecoder.with_capacity 1)
    [1] [true, false] [5, 6] 2 (by decide) (by decide) (by decide)
    (by decide)).trans (by decide)

/-- Claim C4 (amended): after a successful extraction that ran with a
page-validity stream, the value buffer's byte length equals `size` times the
bitmap's bit length, given it did before the call; on the Plain path this
additionally requires the page to hold at least as many whole elements as
there are valid positions among the consumed validity bits (the source's
`push_n` silently clamps to the available elements, see the counterexample);
the Dictionary path needs no such hypothesis.  The nested hooks preserve the
equality when applied as the nested builder pairs them:
`values_extend_nulls n` together with `validity_extend v n`. -/
theorem extraction_length_invariant :
    (∀ (size : Nat) (st : DecodedState) (slice : List Byte) (pv : List Bool)
        (limit : Nat) (st' : DecodedState) (rest : List Byte),
      st.1.size = size → lengthInvariant st → 0 < size → limit ≤ pv.length →
      size * trueCount (pv.take limit) ≤ slice.length →
      BinaryDecoder.decode_plain_encoded size st slice (some pv) limit =
        .ok (st', rest) →
      lengthInvariant st') ∧
    (∀ (size : Nat) (st : DecodedState) (idxs : List Nat) (pv : List Bool)
        (dict : List Byte) (limit : Nat) (st' : DecodedState) (idxs' : List Nat),
      st.1.size = size → lengthInvariant st →
      BinaryDecoder.decode_dictionary_encoded size st idxs (some pv) dict limit =
        .ok (st', idxs') →
      lengthInvariant st') ∧
    (∀ (st : DecodedState) (n : Nat) (v : Bool),
      lengthInvariant st →
      lengthInvariant
        (NestedDecoder.validity_extend (NestedDecoder.values_extend_nulls st n) v n)) := by
  refine ⟨?_, ?_, ?_⟩
  · intro size st slice pv limit st' rest hsize hinv hs hp hsl hok
    rw [decode_plain_encoded_validity_eq size st slice pv limit,
      show extend_from_decoder (plainCollector size) pv limit slice st.1.values st.2 =
        extendFromDecoderFuel (plainCollector size) limit pv limit slice st.1.values st.2
        from rfl,
      extendFromDecoderFuel_plain_char size hs limit limit pv slice st.1.values st.2
        le_rfl hp hsl] at hok
    have hok2 : DOut.ok
        (((⟨st.1.values ++ interleaveSpec size (pv.take limit) slice, st.1.size⟩ :
            FixedSizeBinary), st.2 ++ pv.take limit),
          slice.drop (size * trueCount (pv.take limit))) =
        DOut.ok (st', rest) := hok
    simp only [DOut.ok.injEq, Prod.mk.injEq] at hok2
    obtain ⟨h1, -⟩ := hok2
    rw [← h1]
    unfold lengthInvariant at hinv ⊢
    simp only [List.length_append]
    rw [interleaveSpec_length size (pv.take limit) slice hsl, hsize] at *
    rw [Nat.mul_add]
    omega
  · intro size st idxs pv dict limit st' idxs' hsize hinv hok
    cases hnv : sliceRange dict 0 size with
    | none =>
      rw [decode_dictionary_encoded_short_eq size st idxs (some pv) dict limit hnv] at hok
      exact DOut.noConfusion hok
    | some nv =>
      rw [decode_dictionary_encoded_validity_eq size st idxs pv dict limit nv hnv] at hok
      cases hef : extend_from_decoder (gatheredCollector dict size nv) pv limit idxs
          st.1.values st.2 with
      | ok tr =>
        obtain ⟨i0, t0, b0⟩ := tr
        rw [hef] at hok
        have hok2 : DOut.ok (((⟨t0, st.1.size⟩ : FixedSizeBinary), b0), i0) =
            DOut.ok (st', idxs') := hok
        simp only [DOut.ok.injEq, Prod.mk.injEq] at hok2
        obtain ⟨h1, -⟩ := hok2
        have hef' : extendFromDecoderFuel (gatheredCollector dict size nv) limit pv limit
            idxs st.1.values st.2 = .ok (i0, t0, b0) := hef
        obtain ⟨ht, hb⟩ := extendFromDecoderFuel_gathered_growth dict size nv
          (sliceRange_zero_some dict size nv hnv) limit limit pv idxs st.1.values st.2
          i0 t0 b0 hef'
        rw [← h1]
        unfold lengthInvariant at hinv ⊢
        simp only
        rw [ht, hb, hsize] at *
        rw [Nat.mul_add]
        omega
      | err e tr =>
        obtain ⟨i0, t0, b0⟩ := tr
        rw [hef] at hok
        have hok2 : DOut.err e (((⟨t0, st.1.size⟩ : FixedSizeBinary), b0), i0) =
            DOut.ok (st', idxs') := hok
        exact DOut.noConfusion hok2
      | panic =>
        rw [hef] at hok
        have hok2 : (DOut.panic : DOut (DecodedState × List Nat)) =
            DOut.ok (st', idxs') := hok
        exact DOut.noConfusion hok2
  · intro st n v hinv
    unfold lengthInvariant at hinv ⊢
    simp only [NestedDecoder.validity_extend, NestedDecoder.values_extend_nulls,
      List.length_append, List.length_replicate]
    rw [Nat.mul_add]
    have hc : n * st.1.size = st.1.size * n := Nat.mul_comm _ _
    omega

/-- Counterexample to claim C4 as stated: the Plain collector's `push_n` clamps
to the elements available, so with `size = 1`, a one-byte page `[9]`, validity
`[true, true]` and `limit = 2` the call succeeds yet leaves a one-byte value
buffer against a two-bit bitmap. -/
theorem extraction_length_invariant_counterexample :
    BinaryDecoder.decode_plain_encoded 1 (BinaryDecoder.with_capacity 1) [9]
      (some [true, true]) 2 =
      .ok (((⟨[9], 1⟩ : FixedSizeBinary), [true, true]), []) ∧
    ¬ lengthInvariant ((⟨[9], 1⟩ : FixedSizeBinary), [true, true]) := by
  constructor
  · decide
  · unfold lengthInvariant
    decide

/-- Witness for C4 (amended): each conjunct applied at a concrete extraction. -/
theorem extraction_length_invariant_witness :
    lengthInvariant ((⟨[9, 0], 1⟩ : FixedSizeBinary), [true, false]) ∧
    lengthInvariant ((⟨[5], 1⟩ : FixedSizeBinary), [true]) ∧
    lengthInvariant ((⟨[0, 0], 2⟩ : FixedSizeBinary), [false]) :=
  ⟨extraction_length_invariant.1 1 (BinaryDecoder.with_capacity 1) [9, 8] [true, false]
      2 ((⟨[9, 0], 1⟩ : FixedSizeBinary), [true, false]) [8] rfl rfl (by decide)
      (by decide) (by decide) (by decide),
   extraction_length_invariant.2.1 1 (BinaryDecoder.with_capacity 1) [0] [true] [5] 1
      ((⟨[5], 1⟩ : FixedSizeBinary), [true]) [] rfl rfl (by decide),
   extraction_length_invariant.2.2 ((⟨[], 2⟩ : FixedSizeBinary), []) 1 false rfl⟩
